import Mathlib

/-!
# Verification of the arweave-rs transaction signing & chunked submission client

A shallow embedding of the repository's core: the gateway transaction client
(`src/transaction/client.rs`), the submission orchestrator (`src/lib.rs`),
and the RSA-PSS signer (`src/crypto/sign.rs`).

Conventions of the embedding:
* Byte strings are `List Nat` with every entry `< 256` where it matters.
* HTTP status codes are `Nat` (200 = OK, 202 = Accepted).
* The network is an oracle passed explicitly: `resp : Nat → Nat` gives the
  status code of the i-th HTTP attempt of a retry loop; chunk uploads get a
  per-index outcome oracle. Functions additionally return the number of
  network calls they issued, or a trace of submission events, so that claims
  about "how many calls" are statable.
* `buffer_unordered` completion order is nondeterministic; it is modelled by
  an explicit `order : List Nat` parameter ranging over permutations of the
  chunk indices. Results are proved for every permutation, which covers every
  concurrency cap.
* Code of the repository that is not under `src/` (consts.rs, error.rs,
  transaction/mod.rs, types.rs, upload.rs) is modelled from the spec; such
  definitions carry a doc comment saying so.
-/

namespace ArweaveRs

/-- Modelled from the spec (§7, error.rs is not under src/): the error kinds of
the client. -/
inductive ArError where
  | UnsignedTransaction
  | StatusCodeNotOk
  | GetPriceError (msg : String)
  | TransactionInfoError (msg : String)
  | SigningError (msg : String)
  | InvalidSignature
deriving DecidableEq, Repr

/-- Modelled from the spec (§3, transaction/mod.rs is not under src/): one
addressable slice of the payload with its inclusion proof. -/
structure Chunk where
  data : List Nat
  proof : List Nat
  idx : Nat
deriving DecidableEq, Repr

/-- Modelled from the spec (§3, tags.rs is not under src/): a (name, value)
byte pair. -/
structure Tag where
  name : List Nat
  value : List Nat
deriving DecidableEq, Repr

/-- Modelled from the spec (§3, transaction/mod.rs is not under src/): the
transaction envelope. `id` is empty exactly when unsigned. -/
structure Tx where
  id : List Nat
  owner : List Nat
  target : List Nat
  quantity : Nat
  reward : Nat
  last_tx : List Nat
  tags : List Tag
  data_size : Nat
  data_root : List Nat
  data : List Nat
  chunks : List Chunk
  signature : List Nat
deriving DecidableEq, Repr

/-- Modelled from the spec (§6, transaction/mod.rs is not under src/):
`Tx::clone_with_no_data`, the header-only clone — identical metadata, data
field cleared. -/
def Tx.clone_with_no_data (tx : Tx) : Tx :=
  { tx with data := [] }

/-- Modelled from the spec (§4.2, consts.rs is not under src/): the fixed
retry bound of the posting loops (default 10). -/
def CHUNKS_RETRIES : Nat := 10

/-- Modelled from the spec (§4.3, consts.rs is not under src/): the fixed
maximum inline payload size; payloads strictly larger go through the chunked
path. Value taken from the repository's constants. -/
def MAX_TX_DATA : Nat := 10000000

/-- The retry loop of `TxClient::post_transaction`
(src/transaction/client.rs:40-66). `resp i` is the gateway's status code on
the i-th HTTP post. `fuel` is the number of remaining loop iterations
(`CHUNKS_RETRIES - retries` in the source, whose `status` variable starts at
`NOT_FOUND ≠ OK` so the loop guard reduces to the retry bound). Returns the
result together with the number of HTTP posts issued. -/
def postLoop (resp : Nat → Nat) (tx : Tx) :
    Nat → Nat → Except ArError (List Nat × Nat) × Nat
  | 0, _ => (.error .StatusCodeNotOk, 0)
  | fuel + 1, attempt =>
    let status := resp attempt
    if status = 200 then (.ok (tx.id, tx.reward), 1)
    else
      let rest := postLoop resp tx fuel (attempt + 1)
      (rest.1, rest.2 + 1)

/-- `TxClient::post_transaction` (src/transaction/client.rs:35-66): rejects an
envelope with empty id before any network call, otherwise runs the retry
loop. Returns the result together with the number of HTTP posts issued. -/
def post_transaction (resp : Nat → Nat) (tx : Tx) :
    Except ArError (List Nat × Nat) × Nat :=
  if tx.id = [] then (.error .UnsignedTransaction, 0)
  else postLoop resp tx CHUNKS_RETRIES 0

/-- Rust's `collect::<Result<Vec<_>, _>>` (src/lib.rs:233): the whole list on
all-success, else the first error in list order. -/
def collectResults : List (Except ArError Nat) → Except ArError (List Nat)
  | [] => .ok []
  | .error e :: _ => .error e
  | .ok x :: rest =>
    match collectResults rest with
    | .ok xs => .ok (x :: xs)
    | .error e => .error e

instance {ε α : Type} [DecidableEq ε] [DecidableEq α] : DecidableEq (Except ε α)
  | .ok a, .ok b =>
    if h : a = b then isTrue (by rw [h])
    else isFalse (by intro hc; cases hc; exact h rfl)
  | .ok _, .error _ => isFalse (by intro hc; cases hc)
  | .error _, .ok _ => isFalse (by intro hc; cases hc)
  | .error e, .error f =>
    if h : e = f then isTrue (by rw [h])
    else isFalse (by intro hc; cases hc; exact h rfl)

/-- One observable submission event: a `postTransaction` of an envelope, or
one chunk-upload operation (`post_chunk_with_retries`) for a chunk index. -/
inductive SubmitEvent where
  | txPost (t : Tx)
  | chunkPost (i : Nat)
deriving DecidableEq, Repr

/-- Outcome of a (possibly chunked) submission: the aggregate result, the
ordered trace of submission events, and the per-chunk results in completion
order. -/
structure SubmitOutcome where
  result : Except ArError (List Nat × Nat)
  events : List SubmitEvent
  chunkResults : List (Except ArError Nat)
deriving DecidableEq, Repr

/-- `Arweave::post_transaction_chunks` (src/lib.rs:216-236). `chunkRes i` is
the outcome of `post_chunk_with_retries` for chunk index `i` (upload.rs is not
under src/; per the spec it POSTs the chunk with its own bounded retry).
`order` is the completion order that `buffer_unordered chunksBuffer` happens
to produce — a permutation of the chunk indices; every chunk of
`0..tx.chunks.length` is uploaded exactly once whatever the cap, so `order`
is the sole trace of the cap's scheduling. The header-only envelope is posted
first, its failure aborts before any chunk; the final `collect` turns the
first chunk error (in completion order) into the aggregate result. -/
def post_transaction_chunks (resp : Nat → Nat) (chunkRes : Nat → Except ArError Nat)
    (order : List Nat) (tx : Tx) (chunksBuffer : Nat) : SubmitOutcome :=
  let _ := chunksBuffer
  if tx.id = [] then ⟨.error .UnsignedTransaction, [], []⟩
  else
    let hdr := tx.clone_with_no_data
    match post_transaction resp hdr with
    | (.error e, _) => ⟨.error e, [.txPost hdr], []⟩
    | (.ok (id, reward), _) =>
      let results := order.map chunkRes
      let events := SubmitEvent.txPost hdr :: order.map SubmitEvent.chunkPost
      match collectResults results with
      | .error e => ⟨.error e, events, results⟩
      | .ok _ => ⟨.ok (id, reward), events, results⟩

/-- The size dispatch of `Arweave::upload_file_from_path` (src/lib.rs:203-211)
on an already signed envelope: payload strictly above `MAX_TX_DATA` goes
through `post_transaction_chunks` with a buffer of 100, otherwise a single
`post_transaction` of the full data-carrying envelope. -/
def upload_dispatch (resp : Nat → Nat) (chunkRes : Nat → Except ArError Nat)
    (order : List Nat) (tx : Tx) : SubmitOutcome :=
  if tx.data.length > MAX_TX_DATA then
    post_transaction_chunks resp chunkRes order tx 100
  else
    ⟨(post_transaction resp tx).1, [.txPost tx], []⟩

/-- Modelled from the spec (§4.2, types.rs is not under src/): the structured
status record returned by the status endpoint. -/
structure TxStatus where
  block_height : Nat
  block_indep_hash : List Nat
  number_of_confirmations : Nat
deriving DecidableEq, Repr

/-- The canonical reason phrase of a status code, as `StatusCode::to_string`
renders it for the codes this client meets. -/
def canonicalReason (s : Nat) : String :=
  if s = 200 then "OK"
  else if s = 202 then "Accepted"
  else if s = 400 then "Bad Request"
  else if s = 404 then "Not Found"
  else if s = 500 then "Internal Server Error"
  else ""

/-- The status text carried into `TransactionInfoError`
(`res.status().to_string()`). -/
def statusText (s : Nat) : String :=
  toString s ++ (if canonicalReason s = "" then "" else " " ++ canonicalReason s)

/-- `TxClient::get_tx` (src/transaction/client.rs:111-136), with the body
already parsed (serde parsing is an external crate concern): OK yields the
envelope, Accepted yields pending, anything else is a
`TransactionInfoError` carrying the status text. -/
def get_tx (status : Nat) (body : Tx) : Except ArError (Nat × Option Tx) :=
  if status = 200 then .ok (200, some body)
  else if status = 202 then .ok (202, none)
  else .error (.TransactionInfoError (statusText status))

/-- `TxClient::get_tx_data` (src/transaction/client.rs:138-163), body already
base64-decoded. -/
def get_tx_data (status : Nat) (body : List Nat) :
    Except ArError (Nat × Option (List Nat)) :=
  if status = 200 then .ok (200, some body)
  else if status = 202 then .ok (202, none)
  else .error (.TransactionInfoError (statusText status))

/-- `TxClient::get_tx_status` (src/transaction/client.rs:165-193), body
already parsed into a `TxStatus`. -/
def get_tx_status (status : Nat) (body : TxStatus) :
    Except ArError (Nat × Option TxStatus) :=
  if status = 200 then .ok (200, some body)
  else if status = 202 then .ok (202, none)
  else .error (.TransactionInfoError (statusText status))

/-- The spec's shared three-way classification (§4.2: "OK / Accepted-pending /
error … implement it once and share it"), written from the spec's words, to be
compared with the three endpoint embeddings. -/
def classifyResponse {α : Type} (status : Nat) (body : α) :
    Except ArError (Nat × Option α) :=
  if status = 200 then .ok (200, some body)
  else if status = 202 then .ok (202, none)
  else .error (.TransactionInfoError (statusText status))

/-!
### SHA-256

The digest the signer uses (`sha2::Sha256`, an external crate; embedded here
at the algorithm level, FIPS 180-4). Words are `Nat` reduced `% 2^32` at
every operation that can overflow.
-/

/-- Big-endian fixed-width byte encoding of an integer (`I2OSP`); the `x`
that does not fit into `len` bytes is taken `mod 256^len`. -/
def i2osp : Nat → Nat → List Nat
  | _, 0 => []
  | x, l + 1 => i2osp (x / 256) l ++ [x % 256]

/-- Big-endian byte-string-to-integer (`OS2IP`, `BigUint::from_bytes_be`). -/
def os2ip (bs : List Nat) : Nat :=
  bs.foldl (fun a b => a * 256 + b) 0

/-- Rotate a 32-bit word right by `n` bits. -/
def rotr (n x : Nat) : Nat :=
  ((x >>> n) ||| (x <<< (32 - n))) % 2 ^ 32

/-- SHA-256 Ch function; complement taken inside 32 bits. -/
def shaCh (x y z : Nat) : Nat :=
  (x &&& y) ^^^ ((x ^^^ 4294967295) &&& z)

/-- SHA-256 Maj function. -/
def shaMaj (x y z : Nat) : Nat :=
  (x &&& y) ^^^ (x &&& z) ^^^ (y &&& z)

/-- SHA-256 Σ0. -/
def bigSigma0 (x : Nat) : Nat := rotr 2 x ^^^ rotr 13 x ^^^ rotr 22 x

/-- SHA-256 Σ1. -/
def bigSigma1 (x : Nat) : Nat := rotr 6 x ^^^ rotr 11 x ^^^ rotr 25 x

/-- SHA-256 σ0. -/
def smallSigma0 (x : Nat) : Nat := rotr 7 x ^^^ rotr 18 x ^^^ (x >>> 3)

/-- SHA-256 σ1. -/
def smallSigma1 (x : Nat) : Nat := rotr 17 x ^^^ rotr 19 x ^^^ (x >>> 10)

/-- The 64 SHA-256 round constants. -/
def shaK : List Nat :=
  [1116352408, 1899447441, 3049323471, 3921009573,
   961987163, 1508970993, 2453635748, 2870763221,
   3624381080, 310598401, 607225278, 1426881987,
   1925078388, 2162078206, 2614888103, 3248222580,
   3835390401, 4022224774, 264347078, 604807628,
   770255983, 1249150122, 1555081692, 1996064986,
   2554220882, 2821834349, 2952996808, 3210313671,
   3336571891, 3584528711, 113926993, 338241895,
   666307205, 773529912, 1294757372, 1396182291,
   1695183700, 1986661051, 2177026350, 2456956037,
   2730485921, 2820302411, 3259730800, 3345764771,
   3516065817, 3600352804, 4094571909, 275423344,
   430227734, 506948616, 659060556, 883997877,
   958139571, 1322822218, 1537002063, 1747873779,
   1955562222, 2024104815, 2227730452, 2361852424,
   2428436474, 2756734187, 3204031479, 3329325298]

/-- The SHA-256 working state / chaining value: eight 32-bit words. -/
structure Hash8 where
  a : Nat
  b : Nat
  c : Nat
  d : Nat
  e : Nat
  f : Nat
  g : Nat
  h : Nat
deriving DecidableEq, Repr

/-- The SHA-256 initial hash value. -/
def shaH0 : Hash8 :=
  ⟨1779033703, 3144134277, 1013904242, 2773480762,
   1359893119, 2600822924, 528734635, 1541459225⟩

/-- FIPS 180-4 padding: append `0x80`, zeros to 56 mod 64, and the bit length
as an 8-byte big-endian integer. -/
def shaPad (msg : List Nat) : List Nat :=
  msg ++ 128 :: List.replicate ((119 - msg.length % 64) % 64) 0 ++
    i2osp (8 * msg.length) 8

/-- Pack a byte list into big-endian 32-bit words, four bytes per word. -/
def pack4 : List Nat → List Nat
  | b0 :: b1 :: b2 :: b3 :: rest =>
    (b0 * 16777216 + b1 * 65536 + b2 * 256 + b3) :: pack4 rest
  | _ => []

/-- Split a word list into blocks of sixteen words; `fuel` bounds the
recursion (any `fuel ≥ length` gives all blocks). -/
def blocks16 : Nat → List Nat → List (List Nat)
  | 0, _ => []
  | fuel + 1, ws =>
    if ws = [] then [] else ws.take 16 :: blocks16 fuel (ws.drop 16)

/-- Extend the sixteen block words by `k` schedule words. -/
def schedule (ws : List Nat) : Nat → List Nat
  | 0 => ws
  | k + 1 =>
    let prev := schedule ws k
    prev ++ [(smallSigma1 (prev.getD (prev.length - 2) 0) +
      prev.getD (prev.length - 7) 0 +
      smallSigma0 (prev.getD (prev.length - 15) 0) +
      prev.getD (prev.length - 16) 0) % 2 ^ 32]

/-- One SHA-256 round. -/
def shaRound (s : Hash8) (k w : Nat) : Hash8 :=
  let t1 := (s.h + bigSigma1 s.e + shaCh s.e s.f s.g + k + w) % 2 ^ 32
  let t2 := (bigSigma0 s.a + shaMaj s.a s.b s.c) % 2 ^ 32
  ⟨(t1 + t2) % 2 ^ 32, s.a, s.b, s.c, (s.d + t1) % 2 ^ 32, s.e, s.f, s.g⟩

/-- Compress one sixteen-word block into the chaining value. -/
def compressBlock (s : Hash8) (block : List Nat) : Hash8 :=
  let ws := schedule block 48
  let t := (shaK.zip ws).foldl (fun st p => shaRound st p.1 p.2) s
  ⟨(s.a + t.a) % 2 ^ 32, (s.b + t.b) % 2 ^ 32, (s.c + t.c) % 2 ^ 32,
   (s.d + t.d) % 2 ^ 32, (s.e + t.e) % 2 ^ 32, (s.f + t.f) % 2 ^ 32,
   (s.g + t.g) % 2 ^ 32, (s.h + t.h) % 2 ^ 32⟩

/-- Big-endian bytes of a 32-bit word. -/
def wordBytes (w : Nat) : List Nat :=
  [w / 16777216 % 256, w / 65536 % 256, w / 256 % 256, w % 256]

/-- Serialize the final state to the 32-byte digest. -/
def hashBytes (s : Hash8) : List Nat :=
  ([s.a, s.b, s.c, s.d, s.e, s.f, s.g, s.h].map wordBytes).flatten

/-- SHA-256 of a byte string. -/
def sha256 (msg : List Nat) : List Nat :=
  let ws := pack4 (shaPad msg)
  hashBytes ((blocks16 ws.length ws).foldl compressBlock shaH0)

/-!
### The signer (src/crypto/sign.rs)
-/

/-- The signer's keypair as the arithmetic the code uses it for: the public
modulus `n` and the private exponent `d` of `RsaPrivateKey` (the public
exponent is the network's fixed 65537). -/
structure Signer where
  n : Nat
  d : Nat
deriving DecidableEq, Repr

/-- Minimal big-endian bytes of an integer (`BigUint::to_bytes_be`; `[0]`
for zero), accumulator form; `fuel` bounds the recursion. -/
def natToBytesBEAux : Nat → Nat → List Nat → List Nat
  | 0, _, acc => acc
  | fuel + 1, x, acc =>
    if x = 0 then acc else natToBytesBEAux fuel (x / 256) (x % 256 :: acc)

/-- `BigUint::to_bytes_be`: minimal big-endian bytes, `[0]` for zero. -/
def natToBytesBE (x : Nat) : List Nat :=
  if x = 0 then [0] else natToBytesBEAux x x []

/-- `Signer::public_key` (src/crypto/sign.rs:53-55): the big-endian bytes of
the modulus. -/
def Signer.public_key (s : Signer) : List Nat := natToBytesBE s.n

/-- `Signer::keypair_modulus` (src/crypto/sign.rs:57-60): same bytes. -/
def Signer.keypair_modulus (s : Signer) : List Nat := natToBytesBE s.n

/-- `Signer::wallet_address` (src/crypto/sign.rs:62-67): SHA-256 of the
modulus bytes. -/
def Signer.wallet_address (s : Signer) : List Nat :=
  sha256 s.keypair_modulus

/-!
### RSA-PSS

`Signer::sign`/`Signer::verify` delegate the padding and the modular
arithmetic to the external `rsa` crate; the scheme (EMSA-PSS with SHA-256,
MGF1 over the same hash, salt length = digest length) is modelled from the
spec (§4.1) following RFC 8017. The salt is an explicit parameter — the
source draws it from `thread_rng`, so a theorem over all salts of the right
shape covers every run.
-/

/-- Square-and-multiply modular exponentiation, fuel-bounded (the fuel only
needs to exceed the exponent's bit length). -/
def modpowAux : Nat → Nat → Nat → Nat → Nat
  | 0, _, _, n => 1 % n
  | fuel + 1, b, e, n =>
    if e = 0 then 1 % n
    else
      let r := modpowAux fuel (b * b % n) (e / 2) n
      if e % 2 = 1 then r * b % n else r

/-- `b ^ e mod n` (`BigUint::modpow`). -/
def modpow (b e n : Nat) : Nat := modpowAux (e + 1) b e n

/-- Binary length of an integer (`BigUint::bits`), fuel-bounded. -/
def bitlenAux : Nat → Nat → Nat
  | 0, _ => 0
  | fuel + 1, x => if x = 0 then 0 else bitlenAux fuel (x / 2) + 1

/-- Binary length of an integer: `bitlen 0 = 0`, `2^(bitlen x - 1) ≤ x <
2^(bitlen x)` for `x ≠ 0`. -/
def bitlen (x : Nat) : Nat := bitlenAux x x

/-- Bytewise xor of two byte strings (common prefix). -/
def xorBytes (a b : List Nat) : List Nat :=
  List.zipWith (fun x y => x ^^^ y) a b

/-- MGF1 over SHA-256 (RFC 8017 §B.2.1): concatenate `sha256 (seed ∥ C)` for
a 4-byte counter `C = 0, 1, …` and truncate to `maskLen`. -/
def mgf1 (seed : List Nat) (maskLen : Nat) : List Nat :=
  (((List.range ((maskLen + 31) / 32)).map
    (fun c => sha256 (seed ++ i2osp c 4))).flatten).take maskLen

/-- Clear the `c` leftmost bits of the first byte (the step that keeps the
encoded message below the modulus). -/
def clearHigh (c : Nat) : List Nat → List Nat
  | [] => []
  | b :: bs => (b &&& (255 >>> c)) :: bs

/-- The failure modes of the modelled `rsa` crate operations; the repository
maps any of them to one `Error` variant. -/
inductive PssError where
  | EncodingError
  | Verification
deriving DecidableEq, Repr

/-- EMSA-PSS-ENCODE (RFC 8017 §9.1.1) with SHA-256; `emBits` is the intended
bit length of the encoded message. -/
def emsa_pss_encode (mHash salt : List Nat) (emBits : Nat) :
    Except PssError (List Nat) :=
  let sLen := salt.length
  let emLen := (emBits + 7) / 8
  if emLen < 32 + sLen + 2 then .error .EncodingError
  else
    let H := sha256 (List.replicate 8 0 ++ mHash ++ salt)
    let psLen := emLen - sLen - 32 - 2
    let DB := List.replicate psLen 0 ++ 1 :: salt
    let dbMask := mgf1 H (emLen - 32 - 1)
    let maskedDB := clearHigh (8 * emLen - emBits) (xorBytes DB dbMask)
    .ok (maskedDB ++ H ++ [188])

/-- EMSA-PSS-VERIFY (RFC 8017 §9.1.2) with SHA-256 and an expected salt
length. -/
def emsa_pss_verify (mHash em : List Nat) (emBits sLen : Nat) :
    Except PssError Unit :=
  let emLen := (emBits + 7) / 8
  if emLen < 32 + sLen + 2 then .error .Verification
  else if em.length ≠ emLen then .error .Verification
  else if em.getLast? ≠ some 188 then .error .Verification
  else
    let maskedDB := em.take (emLen - 32 - 1)
    let H := (em.drop (emLen - 32 - 1)).take 32
    if maskedDB.headD 0 &&& (255 ^^^ (255 >>> (8 * emLen - emBits))) ≠ 0 then
      .error .Verification
    else
      let DB := clearHigh (8 * emLen - emBits)
        (xorBytes maskedDB (mgf1 H (emLen - 32 - 1)))
      let psLen := emLen - 32 - sLen - 2
      if DB.take psLen ≠ List.replicate psLen 0 then .error .Verification
      else if DB.getD psLen 0 ≠ 1 then .error .Verification
      else if H = sha256 (List.replicate 8 0 ++ mHash ++ DB.drop (psLen + 1))
        then .ok () else .error .Verification

/-- RSASSA-PSS signing of an already computed message hash: encode for
`bitlen n - 1` bits, apply the private RSA primitive, serialize to the key's
byte size. -/
def rsa_sign_pss (n d : Nat) (mHash salt : List Nat) :
    Except PssError (List Nat) :=
  match emsa_pss_encode mHash salt (bitlen n - 1) with
  | .error e => .error e
  | .ok em => .ok (i2osp (modpow (os2ip em) d n) ((bitlen n + 7) / 8))

/-- RSASSA-PSS verification of an already computed message hash under the
public key `(n, e)`. -/
def rsa_verify_pss (n e : Nat) (mHash sig : List Nat) (sLen : Nat) :
    Except PssError Unit :=
  if sig.length ≠ (bitlen n + 7) / 8 then .error .Verification
  else
    let m := modpow (os2ip sig) e n
    let emBits := bitlen n - 1
    let emLen := (emBits + 7) / 8
    if 256 ^ emLen ≤ m then .error .Verification
    else emsa_pss_verify mHash (i2osp m emLen) emBits sLen

/-- The salt an encoded message embeds, as the verification path recovers it:
unmask DB, drop PS and the 0x01 separator. -/
def emRecoverSalt (em : List Nat) (emBits sLen : Nat) : List Nat :=
  let emLen := (emBits + 7) / 8
  let maskedDB := em.take (emLen - 32 - 1)
  let H := (em.drop (emLen - 32 - 1)).take 32
  let DB := clearHigh (8 * emLen - emBits)
    (xorBytes maskedDB (mgf1 H (emLen - 32 - 1)))
  DB.drop (emLen - 32 - sLen - 2 + 1)

/-- The salt a signature embeds under the public key `(n, e)`: apply the
public primitive and recover the salt from the encoded message. -/
def extractSalt (n e sLen : Nat) (sig : List Nat) : List Nat :=
  emRecoverSalt
    (i2osp (modpow (os2ip sig) e n) ((bitlen n - 1 + 7) / 8))
    (bitlen n - 1) sLen

/-- Modelled from the spec (§4.1): the PSS salt length is the digest
length. -/
def SALT_LEN : Nat := 32

/-- `Signer::sign` (src/crypto/sign.rs:69-87): SHA-256 the message, sign the
digest under PSS; the salt stands for the bytes `thread_rng` would draw. Any
crate error surfaces as `SigningError`. -/
def Signer.sign (s : Signer) (message salt : List Nat) :
    Except ArError (List Nat) :=
  match rsa_sign_pss s.n s.d (sha256 message) salt with
  | .ok sig => .ok sig
  | .error _ => .error (.SigningError "pss encoding failed")

/-- `Signer::verify` (src/crypto/sign.rs:89-111): rebuild the public key from
the raw modulus bytes with the fixed exponent 65537 (the `AQAB` of the JWK the
code formats), SHA-256 the message, check under PSS; any failure is
`InvalidSignature`. -/
def Signer.verify (pub_key message signature : List Nat) :
    Except ArError Unit :=
  match rsa_verify_pss (os2ip pub_key) 65537 (sha256 message) signature
    SALT_LEN with
  | .ok _ => .ok ()
  | .error _ => .error .InvalidSignature

/-- Witness RSA key material: `wP - 1 = 2 ^ 215 * wR1A`,
`wR1A - 1 = 2 ^ 293 * 1048583`, and symmetrically for `wQ`, giving
Pratt-style primality certificates; `wD` inverts 65537 modulo
`(wP - 1) * (wQ - 1)`. -/
def wR1A : Nat := 16687510118537065810918949885073210783201811583089128371099969225041915675388585104530510708737

def wR1B : Nat := 90895939396624071385562175759227554843825450862857002468010904580125480001507950901227569773322596346239245193554239918113292289

def wP : Nat := 878699966412687393403914365918355046868168490640889601574594076833881155746663131848489984824724287203177820840396465430240698197446908182334101741611322966017

def wQ : Nat := 47655650274377241138593622004453896273959557981985572109948501140504827659030600562102800101315757393177081384038165338187781787615233

def wN : Nat := 41875018295470058552357297050151010122146980827519981239781904458462102443871340190486268930917936607391777067557284519709951426378912249811332620458784433224131782569040878139994884027647624266614089809030728712302533814429005103001577377716277965070180326682733250974744221535571594730536961

def wD : Nat := 32226199288193354489016778827554150274205488884398092280843495022155341240201640506086111048717168175693297956563760960008714316200722857521291271421607305098874644355398681605638370675970427767087532473441310562232560575249770054976994823931154498744819167750030799963620038262596854920183809

def wSigner : Signer := ⟨wN, wD⟩

def wSalt1 : List Nat := List.replicate 32 1

def wSalt2 : List Nat := List.replicate 32 2

/-- A concrete signed envelope with two chunks, used by the witnesses. -/
def sampleTx : Tx :=
  ⟨[1], [2], [3], 4, 5, [6], [⟨[7], [8]⟩], 2, [9], [8, 9],
    [⟨[10], [11], 0⟩, ⟨[12], [13], 1⟩], [14]⟩

/-- `sampleTx` with a payload one byte above the inline threshold. -/
def bigTx : Tx :=
  { sampleTx with data := List.replicate (MAX_TX_DATA + 1) 0 }

/-!
## Theorems

Helper lemmas about the retry loop and the collect pattern, then one theorem
per claim with its witness.
-/

theorem postLoop_ok (resp : Nat → Nat) (tx : Tx) :
    ∀ fuel k a, k < fuel → resp (a + k) = 200 →
      (∀ i, i < k → resp (a + i) ≠ 200) →
      postLoop resp tx fuel a = (.ok (tx.id, tx.reward), k + 1) := by
  intro fuel
  induction fuel with
  | zero => intro k a hk; omega
  | succ f ih =>
    intro k a hk hok hne
    cases k with
    | zero =>
      simp only [Nat.add_zero] at hok
      simp [postLoop, hok]
    | succ j =>
      have h0 : resp a ≠ 200 := by
        have := hne 0 (Nat.succ_pos j)
        simpa using this
      have hrec := ih j (a + 1) (by omega)
        (by rw [show a + 1 + j = a + (j + 1) by omega]; exact hok)
        (by intro i hi
            rw [show a + 1 + i = a + (i + 1) by omega]
            exact hne (i + 1) (by omega))
      simp [postLoop, h0, hrec]

theorem postLoop_exhaust (resp : Nat → Nat) (tx : Tx) :
    ∀ fuel a, (∀ i, i < fuel → resp (a + i) ≠ 200) →
      postLoop resp tx fuel a = (.error .StatusCodeNotOk, fuel) := by
  intro fuel
  induction fuel with
  | zero => intro a _; simp [postLoop]
  | succ f ih =>
    intro a hne
    have h0 : resp a ≠ 200 := by
      have := hne 0 (Nat.succ_pos f)
      simpa using this
    have hrec := ih (a + 1) (by
      intro i hi
      rw [show a + 1 + i = a + (i + 1) by omega]
      exact hne (i + 1) (by omega))
    simp [postLoop, h0, hrec]

theorem postLoop_ok_inv (resp : Nat → Nat) (tx : Tx) :
    ∀ fuel a i r c, postLoop resp tx fuel a = (.ok (i, r), c) →
      i = tx.id ∧ r = tx.reward := by
  intro fuel
  induction fuel with
  | zero => intro a i r c h; simp [postLoop] at h
  | succ f ih =>
    intro a i r c h
    by_cases h200 : resp a = 200
    · simp [postLoop, h200] at h
      exact ⟨h.1.1.symm, h.1.2.symm⟩
    · rcases hrec : postLoop resp tx f (a + 1) with ⟨rr, cc⟩
      rw [postLoop] at h
      simp [h200, hrec] at h
      exact ih (a + 1) i r cc (by rw [hrec, h.1])

theorem collectResults_first_error (e : ArError) :
    ∀ l : List (Except ArError Nat), (.error e) ∈ l →
      (∀ x ∈ l, x = .error e ∨ ∃ k, x = .ok k) →
      collectResults l = .error e := by
  intro l
  induction l with
  | nil => intro h; simp at h
  | cons x rest ih =>
    intro hmem hall
    rcases hall x (by simp) with hx | ⟨k, hx⟩
    · rw [hx]; rfl
    · subst hx
      have hrest : (Except.error e : Except ArError Nat) ∈ rest := by
        rcases List.mem_cons.mp hmem with h | h
        · exact absurd h.symm (by simp)
        · exact h
      have := ih hrest (fun y hy => hall y (List.mem_cons_of_mem _ hy))
      simp [collectResults, this]

theorem collectResults_ok_of_all_ok :
    ∀ l : List (Except ArError Nat), (∀ x ∈ l, ∃ k, x = .ok k) →
      ∃ v, collectResults l = .ok v := by
  intro l
  induction l with
  | nil => intro _; exact ⟨[], rfl⟩
  | cons x rest ih =>
    intro hall
    rcases hall x (by simp) with ⟨k, hx⟩
    subst hx
    rcases ih (fun y hy => hall y (List.mem_cons_of_mem _ hy)) with ⟨v, hv⟩
    exact ⟨k :: v, by simp [collectResults, hv]⟩

/-- C4: `postTransaction` on a signed envelope retries on any non-OK response
up to the fixed bound of 10 attempts: if the gateway first returns OK on
attempt N (N ≤ 10) it succeeds after exactly N attempts; if no attempt within
the bound returns OK it returns `StatusCodeNotOk` after exactly 10 attempts. -/
theorem post_transaction_retry_contract (resp : Nat → Nat) (tx : Tx)
    (hid : tx.id ≠ []) :
    (∀ N, 0 < N → N ≤ 10 → resp (N - 1) = 200 →
      (∀ i, i < N - 1 → resp i ≠ 200) →
      post_transaction resp tx = (.ok (tx.id, tx.reward), N)) ∧
    ((∀ i, i < 10 → resp i ≠ 200) →
      post_transaction resp tx = (.error .StatusCodeNotOk, 10)) := by
  constructor
  · intro N hpos hle hok hne
    have h := postLoop_ok resp tx CHUNKS_RETRIES (N - 1) 0
      (by simp [CHUNKS_RETRIES]; omega)
      (by simpa using hok)
      (by intro i hi; simpa using hne i hi)
    rw [post_transaction, if_neg hid, h]
    congr 1
    omega
  · intro hne
    have h := postLoop_exhaust resp tx CHUNKS_RETRIES 0
      (by intro i hi; simpa using hne i (by simpa [CHUNKS_RETRIES] using hi))
    rw [post_transaction, if_neg hid, h]
    rfl

theorem post_transaction_retry_contract_witness :
    sampleTx.id ≠ [] ∧
    post_transaction (fun i => if i = 2 then 200 else 404) sampleTx =
      (.ok (sampleTx.id, sampleTx.reward), 3) ∧
    post_transaction (fun _ => 404) sampleTx =
      (.error .StatusCodeNotOk, 10) :=
  ⟨by decide,
   (post_transaction_retry_contract (fun i => if i = 2 then 200 else 404)
      sampleTx (by decide)).1 3 (by decide) (by decide) (by decide) (by decide),
   (post_transaction_retry_contract (fun _ => 404) sampleTx (by decide)).2
      (by decide)⟩

/-- C5: posting an envelope whose id is empty fails immediately with
`UnsignedTransaction` and issues zero network calls (zero attempts in the
client, and an empty event trace with no chunk posts on the chunked path). -/
theorem post_transaction_unsigned_no_calls (resp : Nat → Nat)
    (chunkRes : Nat → Except ArError Nat) (order : List Nat)
    (buffer : Nat) (tx : Tx) (h : tx.id = []) :
    post_transaction resp tx = (.error .UnsignedTransaction, 0) ∧
    post_transaction_chunks resp chunkRes order tx buffer =
      ⟨.error .UnsignedTransaction, [], []⟩ := by
  constructor
  · simp [post_transaction, h]
  · simp [post_transaction_chunks, h]

theorem post_transaction_unsigned_no_calls_witness :
    { sampleTx with id := [] }.id = [] ∧
    post_transaction (fun _ => 200) { sampleTx with id := [] } =
      (.error .UnsignedTransaction, 0) :=
  ⟨rfl,
   (post_transaction_unsigned_no_calls (fun _ => 200) (fun i => .ok i)
      [0, 1] 1 { sampleTx with id := [] } rfl).1⟩

/-- C10: whenever `postTransaction` succeeds, the returned (id, reward) pair
is taken verbatim from the input envelope's own fields — the gateway response
body is never parsed (the embedding consumes only the status oracle), so the
returned values equal the envelope's fields on every successful post. -/
theorem post_transaction_returns_envelope_fields (resp : Nat → Nat) (tx : Tx)
    (id : List Nat) (r c : Nat)
    (h : post_transaction resp tx = (.ok (id, r), c)) :
    id = tx.id ∧ r = tx.reward := by
  by_cases hid : tx.id = []
  · simp [post_transaction, hid] at h
  · rw [post_transaction, if_neg hid] at h
    exact postLoop_ok_inv resp tx CHUNKS_RETRIES 0 id r c h

theorem post_transaction_returns_envelope_fields_witness :
    post_transaction (fun _ => 200) sampleTx = (.ok ([1], 5), 1) ∧
    ([1] : List Nat) = sampleTx.id ∧ 5 = sampleTx.reward :=
  ⟨by decide,
   post_transaction_returns_envelope_fields (fun _ => 200) sampleTx [1] 5 1
     (by decide)⟩

/-- C8: the three read endpoints apply one and the same three-way
classification of the gateway response: OK yields `(OK, some parsed-body)`,
Accepted yields `(Accepted, none)`, and any other status yields a
`TransactionInfoError` carrying the status text. Each endpoint equals the
shared classifier stated from the spec's words, at every status and body. -/
theorem read_endpoints_share_classification (s : Nat) (t : Tx) (d : List Nat)
    (st : TxStatus) :
    get_tx s t = classifyResponse s t ∧
    get_tx_data s d = classifyResponse s d ∧
    get_tx_status s st = classifyResponse s st :=
  ⟨rfl, rfl, rfl⟩

/-- C6: the submission dispatch — payload length at or below `MAX_TX_DATA`
takes the inline path (one `postTransaction` of the full data-carrying
envelope, zero chunk posts); payload length strictly above takes the chunked
path. -/
theorem upload_dispatch_size_rule (resp : Nat → Nat)
    (chunkRes : Nat → Except ArError Nat) (order : List Nat) (tx : Tx) :
    (tx.data.length ≤ MAX_TX_DATA →
      upload_dispatch resp chunkRes order tx =
        ⟨(post_transaction resp tx).1, [.txPost tx], []⟩) ∧
    (MAX_TX_DATA < tx.data.length →
      upload_dispatch resp chunkRes order tx =
        post_transaction_chunks resp chunkRes order tx 100) := by
  constructor
  · intro h
    rw [upload_dispatch, if_neg (by omega)]
  · intro h
    rw [upload_dispatch, if_pos (by omega)]

theorem bigTx_data_length : bigTx.data.length = MAX_TX_DATA + 1 := by
  rw [show bigTx.data = List.replicate (MAX_TX_DATA + 1) 0 from rfl,
    List.length_replicate]

theorem upload_dispatch_size_rule_witness :
    (sampleTx.data.length ≤ MAX_TX_DATA ∧
      upload_dispatch (fun _ => 200) (fun i => .ok i) [0, 1] sampleTx =
        ⟨(post_transaction (fun _ => 200) sampleTx).1, [.txPost sampleTx], []⟩) ∧
    (MAX_TX_DATA < bigTx.data.length ∧
      upload_dispatch (fun _ => 200) (fun i => .ok i) [0, 1] bigTx =
        post_transaction_chunks (fun _ => 200) (fun i => .ok i) [0, 1] bigTx 100) :=
  ⟨⟨by decide,
    (upload_dispatch_size_rule (fun _ => 200) (fun i => .ok i) [0, 1]
       sampleTx).1 (by decide)⟩,
   ⟨by simp [bigTx_data_length],
    (upload_dispatch_size_rule (fun _ => 200) (fun i => .ok i) [0, 1]
       bigTx).2 (by simp [bigTx_data_length])⟩⟩

/-- C2: on the chunked path, exactly one header-only envelope (same record,
data cleared) is posted, before any chunk post; a failed header post aborts
the submission with no chunk posts attempted; a successful header post is
followed by exactly `chunks.length` chunk posts — one per chunk index — for
every completion order the concurrency cap can produce. -/
theorem chunked_header_then_chunks (resp : Nat → Nat)
    (chunkRes : Nat → Except ArError Nat) (order : List Nat) (buffer : Nat)
    (tx : Tx) (hid : tx.id ≠ [])
    (hperm : order.Perm (List.range tx.chunks.length)) :
    (∀ e, (post_transaction resp tx.clone_with_no_data).1 = .error e →
      post_transaction_chunks resp chunkRes order tx buffer =
        ⟨.error e, [.txPost tx.clone_with_no_data], []⟩) ∧
    (∀ v, (post_transaction resp tx.clone_with_no_data).1 = .ok v →
      (post_transaction_chunks resp chunkRes order tx buffer).events =
        SubmitEvent.txPost tx.clone_with_no_data ::
          order.map SubmitEvent.chunkPost ∧
      (order.map SubmitEvent.chunkPost).Perm
        ((List.range tx.chunks.length).map SubmitEvent.chunkPost)) := by
  rcases hpt : post_transaction resp tx.clone_with_no_data with ⟨r, c⟩
  constructor
  · intro e he
    have he' : r = .error e := he
    subst he'
    simp [post_transaction_chunks, hid, hpt]
  · intro v hv
    have hv' : r = .ok v := hv
    subst hv'
    refine ⟨?_, hperm.map _⟩
    rcases v with ⟨vi, vr⟩
    rcases hc : collectResults (order.map chunkRes) with e | w <;>
      simp [post_transaction_chunks, hid, hpt, hc]

theorem chunked_header_then_chunks_witness :
    sampleTx.id ≠ [] ∧
    ([1, 0] : List Nat).Perm (List.range sampleTx.chunks.length) ∧
    (post_transaction (fun _ => 404) sampleTx.clone_with_no_data).1 =
      .error .StatusCodeNotOk ∧
    post_transaction_chunks (fun _ => 404) (fun i => .ok i) [1, 0] sampleTx 1 =
      ⟨.error .StatusCodeNotOk, [.txPost sampleTx.clone_with_no_data], []⟩ ∧
    (post_transaction (fun _ => 200) sampleTx.clone_with_no_data).1 =
      .ok ([1], 5) ∧
    (post_transaction_chunks (fun _ => 200) (fun i => .ok i) [1, 0] sampleTx
        1).events =
      SubmitEvent.txPost sampleTx.clone_with_no_data ::
        ([1, 0] : List Nat).map SubmitEvent.chunkPost :=
  ⟨by decide, by decide, by decide,
   (chunked_header_then_chunks (fun _ => 404) (fun i => .ok i) [1, 0] 1
      sampleTx (by decide) (by decide)).1 .StatusCodeNotOk (by decide),
   by decide,
   ((chunked_header_then_chunks (fun _ => 200) (fun i => .ok i) [1, 0] 1
      sampleTx (by decide) (by decide)).2 ([1], 5) (by decide)).1⟩

/-- C3: if one chunk fails (after its retries, which the chunk oracle has
already absorbed) while every other chunk succeeds, the chunked submission is
`Failed` with that chunk's cause — the first error the collect pass meets —
and the per-chunk result set is a permutation of the one-outcome-per-index
list, so no chunk outcome is missing or duplicated; partial success never
becomes overall success. -/
theorem chunked_single_failure_aggregation (resp : Nat → Nat)
    (chunkRes : Nat → Except ArError Nat) (order : List Nat) (buffer : Nat)
    (tx : Tx) (j : Nat) (e : ArError) (hid : tx.id ≠ [])
    (hperm : order.Perm (List.range tx.chunks.length))
    (hok : ∃ v, (post_transaction resp tx.clone_with_no_data).1 = .ok v)
    (hj : j < tx.chunks.length) (hfail : chunkRes j = .error e)
    (hrest : ∀ i, i < tx.chunks.length → i ≠ j → (chunkRes i).isOk = true) :
    (post_transaction_chunks resp chunkRes order tx buffer).result =
      .error e ∧
    (post_transaction_chunks resp chunkRes order tx buffer).chunkResults.Perm
      ((List.range tx.chunks.length).map chunkRes) := by
  have hmemorder : ∀ i, i ∈ order ↔ i < tx.chunks.length := by
    intro i
    rw [hperm.mem_iff, List.mem_range]
  have hcollect : collectResults (order.map chunkRes) = .error e := by
    apply collectResults_first_error
    · exact List.mem_map.mpr ⟨j, (hmemorder j).mpr hj, hfail⟩
    · intro x hx
      rcases List.mem_map.mp hx with ⟨i, hi, hxi⟩
      by_cases hij : i = j
      · subst hij; left; rw [← hxi, hfail]
      · right
        have := hrest i ((hmemorder i).mp hi) hij
        rcases hxe : chunkRes i with e' | k
        · rw [hxe] at this; simp [Except.isOk, Except.toBool] at this
        · exact ⟨k, by rw [← hxi, hxe]⟩
  rcases hok with ⟨v, hv⟩
  rcases hpt : post_transaction resp tx.clone_with_no_data with ⟨r, c⟩
  rw [hpt] at hv
  have hv' : r = .ok v := hv
  subst hv'
  rcases v with ⟨vi, vr⟩
  constructor <;>
    simp [post_transaction_chunks, hid, hpt, hcollect, hperm.map chunkRes]

theorem chunked_single_failure_aggregation_witness :
    sampleTx.id ≠ [] ∧
    ([1, 0] : List Nat).Perm (List.range sampleTx.chunks.length) ∧
    (1 < sampleTx.chunks.length ∧
      (fun i => if i = 1 then Except.error ArError.StatusCodeNotOk
        else Except.ok i) 1 = .error .StatusCodeNotOk) ∧
    (post_transaction_chunks (fun _ => 200)
        (fun i => if i = 1 then Except.error ArError.StatusCodeNotOk
          else Except.ok i) [1, 0] sampleTx 7).result =
      .error .StatusCodeNotOk :=
  ⟨by decide, by decide, ⟨by decide, by decide⟩,
   (chunked_single_failure_aggregation (fun _ => 200)
      (fun i => if i = 1 then Except.error ArError.StatusCodeNotOk
        else Except.ok i) [1, 0] 7 sampleTx 1 .StatusCodeNotOk
      (by decide) (by decide) ⟨([1], 5), by decide⟩ (by decide) (by decide)
      (by decide)).1⟩

theorem modpowAux_eq : ∀ fuel b e n, e < 2 ^ fuel →
    modpowAux fuel b e n = b ^ e % n := by
  intro fuel
  induction fuel with
  | zero =>
    intro b e n he
    interval_cases e
    simp [modpowAux]
  | succ f ih =>
    intro b e n he
    by_cases he0 : e = 0
    · subst he0; simp [modpowAux]
    · have h2 : e / 2 < 2 ^ f := by
        rw [Nat.div_lt_iff_lt_mul (by norm_num)]
        rw [pow_succ] at he
        exact he
      have hr := ih (b * b % n) (e / 2) n h2
      have hbb : (b * b % n) ^ (e / 2) % n = b ^ (2 * (e / 2)) % n := by
        rw [← Nat.pow_mod, show (b * b : Nat) = b ^ 2 by ring, ← pow_mul]
      rw [modpowAux, if_neg he0]
      simp only [hr]
      by_cases hodd : e % 2 = 1
      · rw [if_pos hodd, hbb, Nat.mod_mul_mod, ← pow_succ,
          show 2 * (e / 2) + 1 = e by omega]
      · rw [if_neg hodd, hbb, show 2 * (e / 2) = e by omega]

theorem modpow_eq (b e n : Nat) : modpow b e n = b ^ e % n :=
  modpowAux_eq (e + 1) b e n
    (lt_of_lt_of_le (Nat.lt_two_pow e)
      (Nat.pow_le_pow_right (by norm_num) (by omega)))

theorem modpow_lt (b e n : Nat) (hn : 0 < n) : modpow b e n < n := by
  rw [modpow_eq]; exact Nat.mod_lt _ hn

theorem bitlenAux_zero : ∀ fuel, bitlenAux fuel 0 = 0 := by
  intro fuel; cases fuel <;> simp [bitlenAux]

theorem bitlenAux_spec : ∀ fuel x, x ≤ fuel →
    x < 2 ^ bitlenAux fuel x ∧ (x ≠ 0 → 2 ^ (bitlenAux fuel x - 1) ≤ x) := by
  intro fuel
  induction fuel with
  | zero =>
    intro x hx
    interval_cases x
    simp [bitlenAux]
  | succ f ih =>
    intro x hx
    by_cases hx0 : x = 0
    · subst hx0; simp [bitlenAux]
    · have hdiv : x / 2 ≤ f := by omega
      obtain ⟨h1, h2⟩ := ih (x / 2) hdiv
      rw [bitlenAux, if_neg hx0]
      constructor
      · rw [pow_succ]
        omega
      · intro _
        by_cases hx1 : x / 2 = 0
        · rw [hx1, bitlenAux_zero]
          simpa using by omega
        · have hlow := h2 hx1
          have hL1 : 1 ≤ bitlenAux f (x / 2) := by
            rcases Nat.eq_zero_or_pos (bitlenAux f (x / 2)) with h | h
            · rw [h] at h1; simp at h1; omega
            · exact h
          have hsplit : 2 ^ bitlenAux f (x / 2) =
              2 * 2 ^ (bitlenAux f (x / 2) - 1) := by
            rw [← pow_succ']
            congr 1
            omega
          simp only [Nat.add_sub_cancel]
          omega

theorem bitlen_lt (x : Nat) : x < 2 ^ bitlen x :=
  (bitlenAux_spec x x le_rfl).1

theorem bitlen_le (x : Nat) (hx : x ≠ 0) : 2 ^ (bitlen x - 1) ≤ x :=
  (bitlenAux_spec x x le_rfl).2 hx

theorem i2osp_length : ∀ l x, (i2osp x l).length = l := by
  intro l
  induction l with
  | zero => intro x; rfl
  | succ k ih => intro x; simp [i2osp, ih]

theorem os2ip_acc : ∀ (bs : List Nat) (a : Nat),
    bs.foldl (fun a b => a * 256 + b) a = a * 256 ^ bs.length + os2ip bs := by
  intro bs
  induction bs with
  | nil => intro a; simp [os2ip]
  | cons x rest ih =>
    intro a
    show rest.foldl _ (a * 256 + x) = _
    rw [ih (a * 256 + x)]
    have hx : os2ip (x :: rest) = x * 256 ^ rest.length + os2ip rest := by
      show rest.foldl _ (0 * 256 + x) = _
      rw [ih (0 * 256 + x)]
      ring
    rw [hx]
    simp [List.length_cons, pow_succ]
    ring

theorem os2ip_cons (b : Nat) (bs : List Nat) :
    os2ip (b :: bs) = b * 256 ^ bs.length + os2ip bs := by
  show bs.foldl _ (0 * 256 + b) = _
  rw [os2ip_acc]
  ring

theorem os2ip_append (u v : List Nat) :
    os2ip (u ++ v) = os2ip u * 256 ^ v.length + os2ip v := by
  unfold os2ip
  rw [List.foldl_append, os2ip_acc]
  rfl

theorem os2ip_i2osp : ∀ l x, os2ip (i2osp x l) = x % 256 ^ l := by
  intro l
  induction l with
  | zero => intro x; simp [i2osp, os2ip, Nat.mod_one]
  | succ k ih =>
    intro x
    rw [i2osp, os2ip_append, ih]
    have h1 : os2ip [x % 256] = x % 256 := by simp [os2ip]
    have h2 : (256 : Nat) ^ (k + 1) = 256 * 256 ^ k := by rw [pow_succ']
    rw [h1, h2, Nat.mod_mul]
    simp only [List.length_cons, List.length_nil, pow_one]
    ring

theorem hashBytes_length (s : Hash8) : (hashBytes s).length = 32 := rfl

theorem sha256_length (m : List Nat) : (sha256 m).length = 32 := rfl

theorem hashBytes_lt (s : Hash8) : ∀ b ∈ hashBytes s, b < 256 := by
  intro b hb
  simp only [hashBytes, List.map_cons, List.map_nil, List.flatten_cons,
    List.flatten_nil, List.mem_append, List.append_nil, wordBytes,
    List.mem_cons, List.not_mem_nil, or_false] at hb
  omega

theorem sha256_bytes_lt (m : List Nat) : ∀ b ∈ sha256 m, b < 256 :=
  hashBytes_lt _

theorem getD_lt_of_forall (l : List Nat) (h : ∀ b ∈ l, b < 256) (i : Nat) :
    l.getD i 0 < 256 := by
  by_cases hi : i < l.length
  · rw [List.getD_eq_getElem l 0 hi]
    exact h _ (List.getElem_mem hi)
  · rw [List.getD_eq_default l 0 (le_of_not_lt hi)]
    norm_num

theorem i2osp_os2ip : ∀ bs : List Nat, (∀ b ∈ bs, b < 256) →
    i2osp (os2ip bs) bs.length = bs := by
  intro bs
  induction bs using List.reverseRecOn with
  | nil => intro _; rfl
  | append_singleton as b ih =>
    intro h
    have hb : b < 256 := h b (by simp)
    have hlen : (as ++ [b]).length = as.length + 1 := by simp
    rw [os2ip_append, hlen, i2osp]
    have h1 : os2ip (as ++ [b]) = os2ip as * 256 + b := by
      rw [os2ip_append]
      simp [os2ip]
    have h2 : os2ip [b] = b := by simp [os2ip]
    simp only [List.length_cons, List.length_nil, Nat.zero_add, pow_one, h2]
    have hdiv : (os2ip as * 256 + b) / 256 = os2ip as := by omega
    have hmod : (os2ip as * 256 + b) % 256 = b := by omega
    rw [hdiv, hmod, ih (fun x hx => h x (by simp [hx]))]

theorem os2ip_lt : ∀ bs : List Nat, (∀ b ∈ bs, b < 256) →
    os2ip bs < 256 ^ bs.length := by
  intro bs
  induction bs using List.reverseRecOn with
  | nil => intro _; simp [os2ip]
  | append_singleton as b ih =>
    intro h
    have hb : b < 256 := h b (by simp)
    have has := ih (fun x hx => h x (by simp [hx]))
    rw [os2ip_append]
    have h2 : os2ip [b] = b := by simp [os2ip]
    have hp : (256 : Nat) ^ (as ++ [b]).length = 256 ^ as.length * 256 := by
      simp [pow_succ]
    rw [h2, hp]
    simp only [List.length_cons, List.length_nil, pow_one]
    omega

theorem os2ip_head_lt (b0 : Nat) (bs : List Nat) (k : Nat) (h0 : b0 < k)
    (h : ∀ b ∈ bs, b < 256) : os2ip (b0 :: bs) < k * 256 ^ bs.length := by
  rw [os2ip_cons]
  have h1 := os2ip_lt bs h
  calc b0 * 256 ^ bs.length + os2ip bs
      < b0 * 256 ^ bs.length + 256 ^ bs.length := by omega
    _ = (b0 + 1) * 256 ^ bs.length := by ring
    _ ≤ k * 256 ^ bs.length := Nat.mul_le_mul_right _ (by omega)

theorem natToBytesBEAux_os2ip : ∀ fuel x acc, x ≤ fuel →
    os2ip (natToBytesBEAux fuel x acc) = x * 256 ^ acc.length + os2ip acc := by
  intro fuel
  induction fuel with
  | zero =>
    intro x acc hx
    interval_cases x
    simp [natToBytesBEAux]
  | succ f ih =>
    intro x acc hx
    by_cases hx0 : x = 0
    · subst hx0; simp [natToBytesBEAux]
    · rw [natToBytesBEAux, if_neg hx0, ih (x / 256) _ (by omega)]
      rw [os2ip_cons]
      simp only [List.length_cons]
      have hx256 : 256 * (x / 256) + x % 256 = x := Nat.div_add_mod x 256
      rw [pow_succ']
      calc x / 256 * (256 * 256 ^ acc.length) +
          (x % 256 * 256 ^ acc.length + os2ip acc)
        = (256 * (x / 256) + x % 256) * 256 ^ acc.length + os2ip acc := by ring
      _ = x * 256 ^ acc.length + os2ip acc := by rw [hx256]

theorem os2ip_natToBytesBE (x : Nat) : os2ip (natToBytesBE x) = x := by
  unfold natToBytesBE
  by_cases h : x = 0
  · subst h; simp [os2ip]
  · rw [if_neg h, natToBytesBEAux_os2ip x x [] le_rfl]
    simp [os2ip]

theorem testBit_255 (i : Nat) : Nat.testBit 255 i = decide (i < 8) := by
  rw [show (255 : Nat) = 2 ^ 8 - 1 by norm_num, Nat.testBit_two_pow_sub_one]

theorem testBit_one' (i : Nat) : Nat.testBit 1 i = decide (i = 0) := by
  rw [show (1 : Nat) = 2 ^ 1 - 1 by norm_num, Nat.testBit_two_pow_sub_one]
  simp [Nat.lt_one_iff]

theorem testBit_shift255 (c i : Nat) :
    (255 >>> c).testBit i = decide (i + c < 8) := by
  rw [Nat.testBit_shiftRight, testBit_255]
  simp [Nat.add_comm]

theorem mask_compl_land (y c : Nat) :
    (y &&& (255 >>> c)) &&& (255 ^^^ (255 >>> c)) = 0 := by
  apply Nat.eq_of_testBit_eq
  intro i
  simp only [Nat.testBit_land, Nat.testBit_xor, testBit_shift255, testBit_255,
    Nat.zero_testBit]
  by_cases h1 : i + c < 8
  · have h2 : i < 8 := by omega
    simp [h1, h2]
  · simp [h1]

theorem unmask_head (d0 a0 c : Nat) (hd : d0 ≤ 1) (hc : c ≤ 7) :
    (((d0 ^^^ a0) &&& (255 >>> c)) ^^^ a0) &&& (255 >>> c) = d0 := by
  apply Nat.eq_of_testBit_eq
  intro i
  simp only [Nat.testBit_land, Nat.testBit_xor, testBit_shift255]
  by_cases h1 : i + c < 8
  · simp only [decide_eq_true h1, Bool.and_true]
    cases hdi : d0.testBit i <;> cases hai : a0.testBit i <;> simp
  · simp only [decide_eq_false h1, Bool.and_false]
    interval_cases d0
    · simp
    · rw [testBit_one']
      have : i ≠ 0 := by omega
      simp [this]

theorem shift255_eq (c : Nat) (hc : c ≤ 8) : 255 >>> c = 2 ^ (8 - c) - 1 := by
  interval_cases c <;> decide

theorem land_mask_lt (y c : Nat) (hc : c ≤ 7) :
    y &&& (255 >>> c) < 2 ^ (8 - c) := by
  have h : y &&& (255 >>> c) ≤ 255 >>> c := Nat.and_le_right
  have h2 : 255 >>> c = 2 ^ (8 - c) - 1 := shift255_eq c (by omega)
  have hpos : 0 < 2 ^ (8 - c) := Nat.pos_pow_of_pos _ (by norm_num)
  omega

theorem land_mask_le (y c : Nat) : y &&& (255 >>> c) ≤ 255 := by
  have h : y &&& (255 >>> c) ≤ 255 >>> c := Nat.and_le_right
  have h2 : 255 >>> c ≤ 255 := by
    rw [Nat.shiftRight_eq_div_pow]
    exact Nat.div_le_self _ _
  omega

theorem xorBytes_length (a b : List Nat) :
    (xorBytes a b).length = min a.length b.length := by
  simp [xorBytes]

theorem xorBytes_cancel : ∀ a m : List Nat, a.length = m.length →
    xorBytes (xorBytes a m) m = a := by
  intro a
  induction a with
  | nil => intro m _; cases m <;> rfl
  | cons x xs ih =>
    intro m hlen
    cases m with
    | nil => simp at hlen
    | cons y ys =>
      show ((x ^^^ y) ^^^ y) :: xorBytes (xorBytes xs ys) ys = x :: xs
      rw [Nat.xor_cancel_right, ih ys (by simpa using hlen)]

theorem xorBytes_lt : ∀ a m : List Nat, (∀ x ∈ a, x < 256) →
    (∀ x ∈ m, x < 256) → ∀ x ∈ xorBytes a m, x < 256 := by
  intro a
  induction a with
  | nil => intro m _ _ x hx; simp [xorBytes] at hx
  | cons y ys ih =>
    intro m ha hm x hx
    cases m with
    | nil => simp [xorBytes] at hx
    | cons z zs =>
      have hx' : x = y ^^^ z ∨ x ∈ xorBytes ys zs := by
        simpa [xorBytes] using hx
      rcases hx' with rfl | hx'
      · have h1 : y < 2 ^ 8 := by simpa using ha y (by simp)
        have h2 : z < 2 ^ 8 := by simpa using hm z (by simp)
        simpa using Nat.xor_lt_two_pow h1 h2
      · exact ih zs (fun u hu => ha u (by simp [hu]))
          (fun u hu => hm u (by simp [hu])) x hx'

theorem mgf1_length (seed : List Nat) (L : Nat) : (mgf1 seed L).length = L := by
  unfold mgf1
  rw [List.length_take]
  have hmap : (List.range ((L + 31) / 32)).map
      (List.length ∘ fun c => sha256 (seed ++ i2osp c 4)) =
      List.replicate ((L + 31) / 32) 32 := by
    apply List.eq_replicate_iff.2
    constructor
    · simp
    · intro b hb
      rcases List.mem_map.mp hb with ⟨c, _, hc⟩
      rw [← hc]
      exact sha256_length _
  rw [List.length_flatten, List.map_map, hmap, List.sum_replicate,
    smul_eq_mul]
  omega

theorem mgf1_lt (seed : List Nat) (L : Nat) : ∀ b ∈ mgf1 seed L, b < 256 := by
  intro b hb
  unfold mgf1 at hb
  have hb2 := List.mem_of_mem_take hb
  rcases List.mem_flatten.mp hb2 with ⟨l, hl, hbl⟩
  rcases List.mem_map.mp hl with ⟨c, _, hc⟩
  rw [← hc] at hbl
  exact sha256_bytes_lt _ b hbl

/-- C9 counterexample: it is not true that distinct public moduli always yield
distinct wallet addresses — the address is a 32-byte SHA-256 digest, so among
the `2^256 + 1` signers with moduli `0, 1, …, 2^256` two distinct moduli must
share an address by pigeonhole. -/
theorem wallet_address_not_injective :
    ¬ ∀ s1 s2 : Signer, s1.n ≠ s2.n →
      s1.wallet_address ≠ s2.wallet_address := by
  intro hinj
  have hb : ∀ (x k : Nat), (Signer.mk x 0).wallet_address.getD k 0 < 256 :=
    fun x k => getD_lt_of_forall _ (sha256_bytes_lt _) k
  have hcard : Fintype.card (Fin 32 → Fin 256) <
      Fintype.card (Fin (2 ^ 256 + 1)) := by
    rw [Fintype.card_fun, Fintype.card_fin, Fintype.card_fin, Fintype.card_fin]
    norm_num
  obtain ⟨i, j, hne, heq⟩ :=
    Fintype.exists_ne_map_eq_of_card_lt
      (fun i : Fin (2 ^ 256 + 1) => fun k : Fin 32 =>
        (⟨(Signer.mk i.val 0).wallet_address.getD k.val 0,
          hb i.val k.val⟩ : Fin 256))
      hcard
  have hlen1 : (Signer.mk i.val 0).wallet_address.length = 32 := sha256_length _
  have hlen2 : (Signer.mk j.val 0).wallet_address.length = 32 := sha256_length _
  have hlists : (Signer.mk i.val 0).wallet_address =
      (Signer.mk j.val 0).wallet_address := by
    apply List.ext_getElem (by rw [hlen1, hlen2])
    intro k h1 h2
    have hk : k < 32 := by omega
    have hfk := congrArg Fin.val (congrFun heq ⟨k, hk⟩)
    simp only at hfk
    rw [← List.getD_eq_getElem _ 0 h1, ← List.getD_eq_getElem _ 0 h2]
    exact hfk
  exact hinj _ _ (by simpa using Fin.val_injective.ne hne) hlists

/-- C9 (amended): the wallet address is SHA-256 of the big-endian modulus
bytes and is a pure function of the modulus — deterministic across calls and
independent of the private exponent; addresses of two signers coincide exactly
when the SHA-256 digests of their modulus bytes coincide (full injectivity on
distinct moduli is impossible for a 32-byte digest). -/
theorem wallet_address_spec (s1 s2 : Signer) :
    s1.wallet_address = sha256 (natToBytesBE s1.n) ∧
    (s1.n = s2.n → s1.wallet_address = s2.wallet_address) ∧
    (s1.wallet_address = s2.wallet_address ↔
      sha256 (natToBytesBE s1.n) = sha256 (natToBytesBE s2.n)) := by
  refine ⟨rfl, ?_, Iff.rfl⟩
  intro h
  unfold Signer.wallet_address Signer.keypair_modulus
  rw [h]

theorem wallet_address_spec_witness :
    (Signer.mk 5 1).n = (Signer.mk 5 2).n ∧
    (Signer.mk 5 1).wallet_address = (Signer.mk 5 2).wallet_address :=
  ⟨rfl, (wallet_address_spec ⟨5, 1⟩ ⟨5, 2⟩).2.1 rfl⟩

theorem clearHigh_length (c : Nat) : ∀ l : List Nat,
    (clearHigh c l).length = l.length := by
  intro l; cases l <;> rfl

/-- EMSA-PSS encode/verify consistency: a successfully encoded message
verifies against the same hash, its bytes are in range, its integer value is
below `2 ^ emBits`, and the embedded salt is recoverable. -/
theorem emsa_pss_consistent (mHash salt : List Nat) (emBits : Nat)
    (em : List Nat) (hsalt : ∀ b ∈ salt, b < 256)
    (henc : emsa_pss_encode mHash salt emBits = .ok em) :
    emsa_pss_verify mHash em emBits salt.length = .ok () ∧
    em.length = (emBits + 7) / 8 ∧
    (∀ b ∈ em, b < 256) ∧
    os2ip em < 2 ^ emBits ∧
    emRecoverSalt em emBits salt.length = salt := by
  have hfit : ¬ ((emBits + 7) / 8 < 32 + salt.length + 2) := by
    intro hlt
    simp [emsa_pss_encode, hlt] at henc
  have hem : em =
      clearHigh (8 * ((emBits + 7) / 8) - emBits)
        (xorBytes
          (List.replicate ((emBits + 7) / 8 - salt.length - 32 - 2) 0 ++
            1 :: salt)
          (mgf1 (sha256 (List.replicate 8 0 ++ mHash ++ salt))
            ((emBits + 7) / 8 - 32 - 1))) ++
      sha256 (List.replicate 8 0 ++ mHash ++ salt) ++ [188] := by
    rw [emsa_pss_encode] at henc
    simp only [] at henc
    rw [if_neg hfit] at henc
    injection henc with henc
    exact henc.symm
  set emLen := (emBits + 7) / 8 with hemLen
  set Hh := sha256 (List.replicate 8 0 ++ mHash ++ salt) with hH
  set psLen := emLen - salt.length - 32 - 2 with hpsLen
  set DB := List.replicate psLen 0 ++ 1 :: salt with hDB
  set dbMask := mgf1 Hh (emLen - 32 - 1) with hdbMask
  set c := 8 * emLen - emBits with hc
  set maskedDB := clearHigh c (xorBytes DB dbMask) with hmaskedDB
  have hfit' : 32 + salt.length + 2 ≤ emLen := by omega
  have hc7 : c ≤ 7 := by omega
  have hH_len : Hh.length = 32 := sha256_length _
  have hH_lt : ∀ b ∈ Hh, b < 256 := sha256_bytes_lt _
  have hDB_len : DB.length = emLen - 32 - 1 := by
    rw [hDB]
    simp only [List.length_append, List.length_replicate, List.length_cons]
    omega
  have hDB_lt : ∀ b ∈ DB, b < 256 := by
    rw [hDB]
    intro b hb
    rcases List.mem_append.mp hb with hb | hb
    · have := List.eq_of_mem_replicate hb
      omega
    · rcases List.mem_cons.mp hb with rfl | hb
      · omega
      · exact hsalt b hb
  have hmask_len : dbMask.length = emLen - 32 - 1 := by
    rw [hdbMask]; exact mgf1_length _ _
  have hmask_lt : ∀ b ∈ dbMask, b < 256 := by
    rw [hdbMask]; exact mgf1_lt _ _
  have hmdb_len : maskedDB.length = emLen - 32 - 1 := by
    rw [hmaskedDB, clearHigh_length, xorBytes_length, hDB_len, hmask_len]
    omega
  have hem_len : em.length = emLen := by
    rw [hem]
    simp only [List.length_append, hmdb_len, hH_len, List.length_cons,
      List.length_nil]
    omega
  have hDBcons : ∃ d0 dt, DB = d0 :: dt ∧ d0 ≤ 1 ∧ (∀ b ∈ dt, b < 256) ∧
      dt.length = emLen - 34 := by
    rcases Nat.eq_zero_or_pos psLen with hp | hp
    · refine ⟨1, salt, ?_, le_refl 1, hsalt, by omega⟩
      rw [hDB, hp]
      rfl
    · obtain ⟨k, hk⟩ : ∃ k, psLen = k + 1 := ⟨psLen - 1, by omega⟩
      refine ⟨0, List.replicate k 0 ++ 1 :: salt, ?_, by omega, ?_, ?_⟩
      · rw [hDB, hk, List.replicate_succ, List.cons_append]
      · intro b hb
        rcases List.mem_append.mp hb with hb | hb
        · have := List.eq_of_mem_replicate hb; omega
        · rcases List.mem_cons.mp hb with rfl | hb
          · omega
          · exact hsalt b hb
      · simp only [List.length_append, List.length_replicate,
          List.length_cons]
        omega
  obtain ⟨d0, dt, hDBeq, hd0, hdt_lt, hdt_len⟩ := hDBcons
  have hmaskcons : ∃ a0 mt, dbMask = a0 :: mt ∧ (∀ b ∈ mt, b < 256) ∧
      mt.length = emLen - 34 := by
    cases hdm : dbMask with
    | nil => rw [hdm] at hmask_len; simp at hmask_len; omega
    | cons a0 mt =>
      refine ⟨a0, mt, rfl, ?_, ?_⟩
      · intro b hb
        exact hmask_lt b (by rw [hdm]; exact List.mem_cons_of_mem _ hb)
      · rw [hdm] at hmask_len
        simp only [List.length_cons] at hmask_len
        omega
  obtain ⟨a0, mt, hMeq, hmt_lt, hmt_len⟩ := hmaskcons
  have hxor_eq : xorBytes DB dbMask = (d0 ^^^ a0) :: xorBytes dt mt := by
    rw [hDBeq, hMeq]; rfl
  have hmdb_eq : maskedDB =
      ((d0 ^^^ a0) &&& (255 >>> c)) :: xorBytes dt mt := by
    rw [hmaskedDB, hxor_eq]; rfl
  have hem' : em = maskedDB ++ (Hh ++ [188]) := by
    rw [hem, List.append_assoc]
  have htake : em.take (emLen - 32 - 1) = maskedDB := by
    rw [hem', List.take_left' hmdb_len]
  have hdrop : em.drop (emLen - 32 - 1) = Hh ++ [188] := by
    rw [hem', List.drop_left' hmdb_len]
  have hHrec : (em.drop (emLen - 32 - 1)).take 32 = Hh := by
    rw [hdrop, List.take_left' hH_len]
  have hDBver : clearHigh c (xorBytes maskedDB dbMask) = DB := by
    rw [hmdb_eq, hMeq]
    show clearHigh c
      (((((d0 ^^^ a0) &&& (255 >>> c)) ^^^ a0)) :: xorBytes (xorBytes dt mt) mt) = DB
    show ((((d0 ^^^ a0) &&& (255 >>> c)) ^^^ a0) &&& (255 >>> c)) ::
      xorBytes (xorBytes dt mt) mt = DB
    rw [unmask_head d0 a0 c hd0 hc7,
      xorBytes_cancel dt mt (by omega), hDBeq]
  have hhead : maskedDB.headD 0 &&& (255 ^^^ (255 >>> c)) = 0 := by
    rw [hmdb_eq]
    exact mask_compl_land _ _
  have hps' : emLen - 32 - salt.length - 2 = psLen := by omega
  have htakePS : DB.take psLen = List.replicate psLen 0 := by
    rw [hDB]; exact List.take_left' (by simp)
  have hgetD : DB.getD psLen 0 = 1 := by
    rw [hDB, List.getD_append_right _ _ _ _ (by simp)]
    simp
  have hdropSalt : DB.drop (psLen + 1) = salt := by
    have h1 : DB.drop psLen = 1 :: salt := by
      rw [hDB]; exact List.drop_left' (by simp)
    have h2 : (DB.drop psLen).drop 1 = DB.drop (psLen + 1) :=
      List.drop_drop 1 psLen DB
    rw [← h2, h1]
    rfl
  have hlast : em.getLast? = some 188 := by
    rw [hem]; exact List.getLast?_concat _
  have hver : emsa_pss_verify mHash em emBits salt.length = .ok () := by
    rw [emsa_pss_verify]
    simp only []
    rw [← hemLen, ← hc]
    rw [if_neg (by omega : ¬ (emLen < 32 + salt.length + 2))]
    rw [if_neg (not_ne_iff.mpr hem_len)]
    rw [if_neg (not_ne_iff.mpr hlast)]
    rw [htake, hHrec, ← hdbMask]
    rw [if_neg (not_ne_iff.mpr hhead)]
    rw [hDBver, hps']
    rw [if_neg (not_ne_iff.mpr htakePS)]
    rw [if_neg (not_ne_iff.mpr hgetD)]
    rw [hdropSalt, if_pos hH]
  have hem_lt : ∀ b ∈ em, b < 256 := by
    rw [hem]
    intro b hb
    rcases List.mem_append.mp hb with hb | hb
    · rcases List.mem_append.mp hb with hb | hb
      · rw [hmdb_eq] at hb
        rcases List.mem_cons.mp hb with rfl | hb
        · exact lt_of_le_of_lt (land_mask_le _ _) (by norm_num)
        · exact xorBytes_lt dt mt hdt_lt hmt_lt b hb
      · exact hH_lt b hb
    · rcases List.mem_cons.mp hb with rfl | hb
      · norm_num
      · simp at hb
  have hos : os2ip em < 2 ^ emBits := by
    have hcons : em = ((d0 ^^^ a0) &&& (255 >>> c)) ::
        (xorBytes dt mt ++ (Hh ++ [188])) := by
      rw [hem', hmdb_eq]
      rfl
    have hrest_lt : ∀ b ∈ xorBytes dt mt ++ (Hh ++ [188]), b < 256 := by
      intro b hb
      rcases List.mem_append.mp hb with hb | hb
      · exact xorBytes_lt dt mt hdt_lt hmt_lt b hb
      · rcases List.mem_append.mp hb with hb | hb
        · exact hH_lt b hb
        · simp at hb; omega
    have hrest_len : (xorBytes dt mt ++ (Hh ++ [188])).length = emLen - 1 := by
      simp only [List.length_append, xorBytes_length, hdt_len, hmt_len,
        hH_len, List.length_cons, List.length_nil]
      omega
    have hhead_lt : (d0 ^^^ a0) &&& (255 >>> c) < 2 ^ (8 - c) :=
      land_mask_lt _ _ hc7
    have hbound := os2ip_head_lt _ _ _ hhead_lt hrest_lt
    rw [hrest_len] at hbound
    rw [hcons]
    calc os2ip (((d0 ^^^ a0) &&& (255 >>> c)) ::
          (xorBytes dt mt ++ (Hh ++ [188])))
        < 2 ^ (8 - c) * 256 ^ (emLen - 1) := hbound
      _ = 2 ^ emBits := by
          rw [show (256 : Nat) = 2 ^ 8 by norm_num, ← pow_mul, ← pow_add]
          congr 1
          omega
  have hrec : emRecoverSalt em emBits salt.length = salt := by
    rw [emRecoverSalt]
    rw [← hemLen, ← hc, htake, hHrec, ← hdbMask, hDBver, hps', hdropSalt]
  exact ⟨hver, hem_len, hem_lt, hos, hrec⟩

theorem rsa_sign_pss_ok (n d : Nat) (mHash salt : List Nat)
    (hfit : ¬ ((bitlen n - 1 + 7) / 8 < 32 + salt.length + 2)) :
    ∃ sig, rsa_sign_pss n d mHash salt = .ok sig := by
  rw [rsa_sign_pss]
  cases henc : emsa_pss_encode mHash salt (bitlen n - 1) with
  | error e =>
    exfalso
    rw [emsa_pss_encode] at henc
    simp only [] at henc
    rw [if_neg hfit] at henc
    cases henc
  | ok em => exact ⟨_, rfl⟩

/-- RSASSA-PSS round trip over any key for which the RSA primitives invert
each other: an honestly produced signature verifies, and the salt it embeds
is recoverable. -/
theorem rsa_pss_roundtrip (n d e : Nat) (mHash salt sig : List Nat)
    (hkey : ∀ m, m < n → modpow (modpow m d n) e n = m)
    (hn : 2 ≤ n)
    (hsalt : ∀ b ∈ salt, b < 256)
    (hsig : rsa_sign_pss n d mHash salt = .ok sig) :
    rsa_verify_pss n e mHash sig salt.length = .ok () ∧
    extractSalt n e salt.length sig = salt := by
  rw [rsa_sign_pss] at hsig
  cases henc : emsa_pss_encode mHash salt (bitlen n - 1) with
  | error e' => rw [henc] at hsig; cases hsig
  | ok em =>
    rw [henc] at hsig
    injection hsig with hsig
    obtain ⟨hver0, hemlen, hemlt, hos, hrecov⟩ :=
      emsa_pss_consistent mHash salt (bitlen n - 1) em hsalt henc
    have hbit1 : 1 ≤ bitlen n := by
      by_contra h0
      have hlt := bitlen_lt n
      interval_cases h : bitlen n
      · simp at hlt; omega
    have h2embits : 2 ^ (bitlen n - 1) ≤ n := bitlen_le n (by omega)
    have hm_lt_n : os2ip em < n := lt_of_lt_of_le hos h2embits
    have hn0 : 0 < n := by omega
    have hs_lt_n : modpow (os2ip em) d n < n := modpow_lt _ _ _ hn0
    have hklen8 : bitlen n ≤ 8 * ((bitlen n + 7) / 8) := by omega
    have hn_lt_2k : n < 2 ^ (8 * ((bitlen n + 7) / 8)) :=
      lt_of_lt_of_le (bitlen_lt n) (Nat.pow_le_pow_right (by norm_num) hklen8)
    have h256k : (256 : Nat) ^ ((bitlen n + 7) / 8) =
        2 ^ (8 * ((bitlen n + 7) / 8)) := by
      rw [show (256 : Nat) = 2 ^ 8 by norm_num, ← pow_mul]
    have hs_lt_256k : modpow (os2ip em) d n < 256 ^ ((bitlen n + 7) / 8) := by
      rw [h256k]; omega
    have hsiglen : sig.length = (bitlen n + 7) / 8 := by
      rw [← hsig]; exact i2osp_length _ _
    have hos2sig : os2ip sig = modpow (os2ip em) d n := by
      rw [← hsig, os2ip_i2osp]
      exact Nat.mod_eq_of_lt hs_lt_256k
    have hm' : modpow (os2ip sig) e n = os2ip em := by
      rw [hos2sig]; exact hkey (os2ip em) hm_lt_n
    have hemBits8 : bitlen n - 1 ≤ 8 * ((bitlen n - 1 + 7) / 8) := by omega
    have hmlt256em : os2ip em < 256 ^ ((bitlen n - 1 + 7) / 8) := by
      rw [show (256 : Nat) = 2 ^ 8 by norm_num, ← pow_mul]
      exact lt_of_lt_of_le hos (Nat.pow_le_pow_right (by norm_num) hemBits8)
    have hi2os : i2osp (os2ip em) ((bitlen n - 1 + 7) / 8) = em := by
      have := i2osp_os2ip em hemlt
      rw [hemlen] at this
      exact this
    constructor
    · rw [rsa_verify_pss]
      simp only []
      rw [if_neg (not_ne_iff.mpr hsiglen), hm',
        if_neg (not_le.mpr hmlt256em), hi2os]
      exact hver0
    · rw [extractSalt, hm', hi2os]
      exact hrecov

/-- One prime's leg of RSA correctness: `m ^ (1 + (p-1)·j) ≡ m (mod p)` by
Fermat's little theorem, zero base included. -/
theorem prime_pow_cycle (p m j : Nat) (hp : p.Prime) :
    m ^ (1 + (p - 1) * j) ≡ m [MOD p] := by
  haveI := Fact.mk hp
  have hcast : ((m ^ (1 + (p - 1) * j) : Nat) : ZMod p) = (m : ZMod p) := by
    push_cast
    by_cases hm0 : (m : ZMod p) = 0
    · rw [hm0, zero_pow (by omega : 1 + (p - 1) * j ≠ 0)]
    · rw [pow_add, pow_one, pow_mul, ZMod.pow_card_sub_one_eq_one hm0,
        one_pow, mul_one]
  exact (ZMod.natCast_eq_natCast_iff _ _ _).mp hcast

/-- RSA inversion: for distinct primes `p, q` and `d·e ≡ 1 mod (p-1)(q-1)`,
decryption undoes encryption on every residue below the modulus. -/
theorem rsa_key_inversion (p q e d : Nat) (hp : p.Prime) (hq : q.Prime)
    (hpq : p ≠ q) (hed : d * e ≡ 1 [MOD (p - 1) * (q - 1)]) :
    ∀ m, m < p * q → modpow (modpow m d (p * q)) e (p * q) = m := by
  intro m hm
  have h2p := hp.two_le
  have h2q := hq.two_le
  have hM2 : 2 ≤ (p - 1) * (q - 1) := by
    rcases Nat.lt_or_ge p 3 with h | h
    · have hp2 : p = 2 := by omega
      have hq3 : 3 ≤ q := by
        rcases Nat.lt_or_ge q 3 with h' | h'
        · exfalso; apply hpq; omega
        · exact h'
      subst hp2
      omega
    · calc 2 = 2 * 1 := by norm_num
        _ ≤ (p - 1) * (q - 1) := Nat.mul_le_mul (by omega) (by omega)
  have hde1 : 1 ≤ d * e := by
    by_contra h0
    push_neg at h0
    have hde0 : d * e = 0 := by omega
    have h01 : (0 : Nat) ≡ 1 [MOD (p - 1) * (q - 1)] := hde0 ▸ hed
    have h02 : (0 : Nat) % ((p - 1) * (q - 1)) = 1 % ((p - 1) * (q - 1)) := h01
    rw [Nat.zero_mod, Nat.mod_eq_of_lt (by omega)] at h02
    omega
  obtain ⟨k, hk⟩ := (Nat.modEq_iff_dvd' hde1).mp hed.symm
  have hde : d * e = 1 + (p - 1) * (q - 1) * k := by omega
  have hmp : m ^ (d * e) ≡ m [MOD p] := by
    have := prime_pow_cycle p m ((q - 1) * k) hp
    rwa [show 1 + (p - 1) * ((q - 1) * k) = d * e by rw [hde]; ring] at this
  have hmq : m ^ (d * e) ≡ m [MOD q] := by
    have := prime_pow_cycle q m ((p - 1) * k) hq
    rwa [show 1 + (q - 1) * ((p - 1) * k) = d * e by rw [hde]; ring] at this
  have hco : Nat.Coprime p q := (Nat.coprime_primes hp hq).mpr hpq
  have hmod : m ^ (d * e) ≡ m [MOD p * q] :=
    (Nat.modEq_and_modEq_iff_modEq_mul hco).mp ⟨hmp, hmq⟩
  rw [modpow_eq, modpow_eq, ← Nat.pow_mod, ← pow_mul]
  calc m ^ (d * e) % (p * q) = m % (p * q) := hmod
    _ = m := Nat.mod_eq_of_lt hm

/-- C1: for every message and valid RSA keypair (distinct primes `p, q`,
private exponent inverting the fixed public exponent 65537 modulo
`(p-1)(q-1)`, modulus large enough for the PSS layout), signing with any two
distinct 32-byte salts — the randomness `thread_rng` supplies on two calls —
produces signatures that both verify under the signer's public key while the
signature bytes differ. Verification is deterministic, so it succeeds on
every repeated call. -/
theorem sign_verify_roundtrip (p q : Nat) (s : Signer)
    (message salt1 salt2 : List Nat)
    (hp : p.Prime) (hq : q.Prime) (hpq : p ≠ q) (hn : s.n = p * q)
    (hd : s.d * 65537 ≡ 1 [MOD (p - 1) * (q - 1)])
    (hfit : 66 ≤ (bitlen s.n - 1 + 7) / 8)
    (hl1 : salt1.length = 32) (hl2 : salt2.length = 32)
    (hb1 : ∀ b ∈ salt1, b < 256) (hb2 : ∀ b ∈ salt2, b < 256)
    (hne : salt1 ≠ salt2) :
    ∃ sig1 sig2,
      s.sign message salt1 = .ok sig1 ∧ s.sign message salt2 = .ok sig2 ∧
      Signer.verify s.public_key message sig1 = .ok () ∧
      Signer.verify s.public_key message sig2 = .ok () ∧
      sig1 ≠ sig2 := by
  have hkey : ∀ m, m < s.n → modpow (modpow m s.d s.n) 65537 s.n = m := by
    rw [hn]
    exact rsa_key_inversion p q 65537 s.d hp hq hpq hd
  have hn2 : 2 ≤ s.n := by
    rw [hn]
    calc 2 ≤ 2 * 2 := by norm_num
      _ ≤ p * q := Nat.mul_le_mul hp.two_le hq.two_le
  have hfit1 : ¬ ((bitlen s.n - 1 + 7) / 8 < 32 + salt1.length + 2) := by
    rw [hl1]; omega
  have hfit2 : ¬ ((bitlen s.n - 1 + 7) / 8 < 32 + salt2.length + 2) := by
    rw [hl2]; omega
  obtain ⟨sig1, hsig1⟩ :=
    rsa_sign_pss_ok s.n s.d (sha256 message) salt1 hfit1
  obtain ⟨sig2, hsig2⟩ :=
    rsa_sign_pss_ok s.n s.d (sha256 message) salt2 hfit2
  obtain ⟨hver1, hext1⟩ :=
    rsa_pss_roundtrip s.n s.d 65537 (sha256 message) salt1 sig1 hkey hn2
      hb1 hsig1
  obtain ⟨hver2, hext2⟩ :=
    rsa_pss_roundtrip s.n s.d 65537 (sha256 message) salt2 sig2 hkey hn2
      hb2 hsig2
  rw [hl1] at hver1 hext1
  rw [hl2] at hver2 hext2
  refine ⟨sig1, sig2, ?_, ?_, ?_, ?_, ?_⟩
  · rw [Signer.sign, hsig1]
  · rw [Signer.sign, hsig2]
  · rw [Signer.verify, Signer.public_key, os2ip_natToBytesBE,
      show SALT_LEN = 32 from rfl, hver1]
  · rw [Signer.verify, Signer.public_key, os2ip_natToBytesBE,
      show SALT_LEN = 32 from rfl, hver2]
  · intro heq
    apply hne
    rw [← hext1, ← hext2, heq]

/-- C7: `Signer::verify` has exactly one failure mode — whatever the inputs
(any public-key bytes, the degenerate and malformed ones included, any
message, any signature bytes), the result is success or the
`InvalidSignature` error; no other error kind and no other outcome can
reach the caller. -/
theorem verify_single_failure_mode (pub_key message signature : List Nat) :
    Signer.verify pub_key message signature = .ok () ∨
    Signer.verify pub_key message signature = .error .InvalidSignature := by
  rw [Signer.verify]
  cases h : rsa_verify_pss (os2ip pub_key) 65537 (sha256 message) signature
      SALT_LEN with
  | ok u => cases u; left; rfl
  | error e => right; rfl

theorem prime_of_cert (p a r t : Nat) (hr : r.Prime)
    (hp1 : p - 1 = 2 ^ t * r)
    (h1 : modpow a (p - 1) p = 1 % p)
    (h2 : modpow a ((p - 1) / 2) p ≠ 1 % p)
    (h3 : modpow a ((p - 1) / r) p ≠ 1 % p) : p.Prime := by
  have bridge : ∀ k : Nat, ((a : ZMod p) ^ k = 1) ↔ modpow a k p = 1 % p := by
    intro k
    rw [modpow_eq]
    constructor
    · intro h
      have hcast : ((a ^ k : Nat) : ZMod p) = ((1 : Nat) : ZMod p) := by
        push_cast
        simpa using h
      exact (ZMod.natCast_eq_natCast_iff _ _ _).mp hcast
    · intro h
      have hmodeq : (a ^ k : Nat) ≡ 1 [MOD p] := h
      have hcast := (ZMod.natCast_eq_natCast_iff _ _ _).mpr hmodeq
      push_cast at hcast
      simpa using hcast
  apply lucas_primality p (a : ZMod p)
  · exact (bridge (p - 1)).mpr h1
  · intro q hq hqdvd
    have hq2 : q = 2 ∨ q = r := by
      rw [hp1] at hqdvd
      rcases (Nat.Prime.dvd_mul hq).mp hqdvd with h | h
      · left
        exact (Nat.prime_dvd_prime_iff_eq hq Nat.prime_two).mp
          (Nat.Prime.dvd_of_dvd_pow hq h)
      · right
        exact (Nat.prime_dvd_prime_iff_eq hq hr).mp h
    rcases hq2 with h | h
    · intro hcon
      rw [h] at hcon
      exact h2 ((bridge ((p - 1) / 2)).mp hcon)
    · intro hcon
      rw [h] at hcon
      exact h3 ((bridge ((p - 1) / r)).mp hcon)

set_option maxRecDepth 8000 in
set_option exponentiation.threshold 512 in
theorem wP_prime : Nat.Prime wP := by
  have hr0 : Nat.Prime 1048583 := by norm_num
  have hr1 : Nat.Prime wR1A :=
    prime_of_cert wR1A 3 1048583 293 hr0 (by decide) (by decide)
      (by decide) (by decide)
  exact prime_of_cert wP 3 wR1A 215 hr1 (by decide) (by decide)
    (by decide) (by decide)

set_option maxRecDepth 8000 in
set_option exponentiation.threshold 512 in
theorem wQ_prime : Nat.Prime wQ := by
  have hr0 : Nat.Prime 1100009 := by norm_num
  have hr1 : Nat.Prime wR1B :=
    prime_of_cert wR1B 3 1100009 405 hr0 (by decide) (by decide)
      (by decide) (by decide)
  exact prime_of_cert wQ 3 wR1B 19 hr1 (by decide) (by decide)
    (by decide) (by decide)

set_option maxRecDepth 8000 in
theorem sign_verify_roundtrip_witness :
    Nat.Prime wP ∧ Nat.Prime wQ ∧ wP ≠ wQ ∧ wSigner.n = wP * wQ ∧
    wSigner.d * 65537 ≡ 1 [MOD (wP - 1) * (wQ - 1)] ∧
    66 ≤ (bitlen wSigner.n - 1 + 7) / 8 ∧
    (∃ sig1 sig2,
      wSigner.sign [116, 101, 115, 116] wSalt1 = .ok sig1 ∧
      wSigner.sign [116, 101, 115, 116] wSalt2 = .ok sig2 ∧
      Signer.verify wSigner.public_key [116, 101, 115, 116] sig1 = .ok () ∧
      Signer.verify wSigner.public_key [116, 101, 115, 116] sig2 = .ok () ∧
      sig1 ≠ sig2) :=
  ⟨wP_prime, wQ_prime, by decide, by decide, by decide, by decide,
   sign_verify_roundtrip wP wQ wSigner [116, 101, 115, 116] wSalt1 wSalt2
     wP_prime wQ_prime (by decide) (by decide) (by decide) (by decide)
     (by decide) (by decide) (by decide) (by decide) (by decide)⟩

end ArweaveRs
